import Mathlib

/-!
Shallow embedding of `common/util.py` from the `vampire` repository:
tensor-manipulation helpers for a semi-supervised text-classification
pipeline (bag-of-words, instance splitting, annealing schedules,
dispersion checks, interpolation, background log frequencies).

Tensors are modelled as lists (`List ℕ` for integer token ids,
`List ℝ` / `List ℚ` for float data, `List (List _)` for matrices).
The global NumPy/torch random-number-generator state is made explicit
as a stream of pre-drawn naturals (`List ℕ`), consumed left to right.
Fallible operations (dictionary access, unbound locals, `torch.cat` on
an empty list) return `Except` / `Option`.
-/

namespace Vampire

/-- `allennlp.nn.util.get_text_field_mask` on a single token tensor:
the padding mask, `1` exactly where the token id is nonzero. -/
def get_text_field_mask (tokens : List (List ℕ)) : List (List Bool) :=
  tokens.map (fun row => row.map (fun t => decide (t ≠ 0)))

/-- `torch.masked_select(row, mask)`: the entries of `row` at positions
where `mask` is true, in order. -/
def maskedSelect {α : Type} (row : List α) (mask : List Bool) : List α :=
  (row.zip mask).filterMap (fun p => if p.2 then some p.1 else none)

/-- `torch.bincount(xs, minlength)`: entry `v` counts occurrences of `v`
in `xs`; the length is `max minlength (max xs + 1)` (`minlength` when
`xs` is empty). -/
def bincount (xs : List ℕ) (minlength : ℕ) : List ℕ :=
  (List.range (max minlength (xs.foldr (fun x m => max (x + 1) m) 0))).map
    (fun v => xs.count v)

/-- The stopword step of `compute_bow`:
`torch.masked_select(vec, 1 - stopword_indicator.byte())` keeps the
entries whose indicator byte is not `1` (a uint8 `1 - b` is nonzero
exactly when `b % 256 ≠ 1`). -/
def stopwordSelect (vec : List ℕ) (indicator : List ℕ) : List ℕ :=
  (vec.zip indicator).filterMap (fun p => if p.2 % 256 ≠ 1 then some p.1 else none)

/-- `compute_bow(tokens, vocab_size, stopword_indicator)`: iterates over
the rows of the batch tensor together with the padding mask, bincounts
the unmasked token ids of each document, optionally drops the stopword
entries, and concatenates the rows.  `torch.cat` on an empty list of
rows raises, hence `none` for an empty batch. -/
def compute_bow (tokens : List (List ℕ)) (vocab_size : ℕ)
    (stopword_indicator : Option (List ℕ)) : Option (List (List ℕ)) :=
  let mask := get_text_field_mask tokens
  let bow_vectors := (tokens.zip mask).map (fun dm =>
    let document := maskedSelect dm.1 dm.2
    let vec := bincount document vocab_size
    match stopword_indicator with
    | none => vec
    | some ind => stopwordSelect vec ind)
  if bow_vectors.isEmpty then none else some bow_vectors

/-- One of the two dictionaries returned by `split_instances`: an absent
key is `none` (the Python dict simply lacks the key). -/
structure Instances where
  tokens : Option (List (List ℕ))
  label : Option (List ℤ)
  targets : Option (List (List ℕ))
deriving DecidableEq, Repr

/-- Indices `i < xs.length` whose entry satisfies `p`, in increasing
order. -/
def idxWhere (p : ℤ → Bool) (xs : List ℤ) : List ℕ :=
  (List.range xs.length).filter (fun i => p (xs.getD i 0))

/-- `is_labeled.int().nonzero().squeeze()` as an index list: the
positions with a nonzero entry, in increasing order (the `squeeze` only
normalizes tensor shape). -/
def nonzeroIndices (xs : List ℤ) : List ℕ :=
  idxWhere (fun x => decide (x ≠ 0)) xs

/-- `(is_labeled.int() == 0).nonzero().squeeze()` as an index list. -/
def zeroIndices (xs : List ℤ) : List ℕ :=
  idxWhere (fun x => decide (x = 0)) xs

/-- Integer-array indexing `m[idxs, :]` (with the code's
`squeeze`/`unsqueeze` shape normalization folded away): the rows of `m`
at the given indices, in order. -/
def selectRows {α : Type} (m : List α) (idxs : List ℕ) : List α :=
  idxs.filterMap (fun i => m.get? i)

/-- `split_instances(tokens, is_labeled, targets, label)`.  The labeled
branch subscripts `label` unconditionally, so `label = None` with at
least one labeled instance raises before anything is returned. -/
def split_instances (tokens : List (List ℕ)) (is_labeled : List ℤ)
    (targets : Option (List (List ℕ))) (label : Option (List ℤ)) :
    Except String (Instances × Instances) :=
  let labeled_indices := nonzeroIndices is_labeled
  let labeledE : Except String Instances :=
    if labeled_indices.isEmpty then Except.ok ⟨none, none, none⟩
    else
      match label with
      | none => Except.error "TypeError: NoneType object is not subscriptable"
      | some lab =>
        Except.ok ⟨some (selectRows tokens labeled_indices),
          some (selectRows lab labeled_indices),
          targets.map (fun t => selectRows t labeled_indices)⟩
  match labeledE with
  | Except.error e => Except.error e
  | Except.ok labeled_instances =>
    let unlabeled_indices := zeroIndices is_labeled
    let unlabeled_instances : Instances :=
      if unlabeled_indices.isEmpty then ⟨none, none, none⟩
      else ⟨some (selectRows tokens unlabeled_indices), none,
        targets.map (fun t => selectRows t unlabeled_indices)⟩
    Except.ok (labeled_instances, unlabeled_instances)

/-- `schedule(batch_num, anneal_type)`: the weight-annealing curves,
over the reals (`np.exp` modelled by `Real.exp`). -/
noncomputable def schedule (batch_num : ℝ) (anneal_type : String) : ℝ :=
  if anneal_type = "linear" then min 1 (batch_num / 2500)
  else if anneal_type = "sigmoid" then
    1 / (1 + Real.exp (-(0.0025) * (batch_num - 2500)))
  else if anneal_type = "constant" then 1.0
  else if anneal_type = "reverse_sigmoid" then
    1 / (1 + Real.exp (0.0025 * (batch_num - 2500)))
  else 0.01

/-- `np.linspace(s, e, num)` in exact arithmetic: `num` evenly spaced
values from `s` to `e` inclusive (`s + step * i` with
`step = (e - s) / (num - 1)`; NumPy overwrites the final entry with `e`,
which coincides with the formula over `ℚ`). -/
def linspace (s e : ℚ) (num : ℕ) : List ℚ :=
  (List.range num).map (fun i : ℕ => s + (e - s) / ((num : ℚ) - 1) * (i : ℚ))

/-- `interpolate(start, end, steps)`: allocates a `start.shape[0]` by
`steps + 2` zero matrix, fills row `dim` with
`np.linspace(start[dim], end[dim], steps + 2)` for each pair produced by
`zip(start, end)` (rows beyond the zip stay zero), and returns the
transpose. -/
def interpolate (start stop : List ℚ) (steps : ℕ) : List (List ℚ) :=
  let interpolation : List (List ℚ) :=
    (List.range start.length).map (fun dim =>
      match (start.zip stop).get? dim with
      | some se => linspace se.1 se.2 (steps + 2)
      | none => List.replicate (steps + 2) 0)
  (List.range (steps + 2)).map (fun i =>
    interpolation.map (fun row => row.getD i 0))

/-- The token strings special-cased by `compute_background_log_frequency`. -/
def vampireSpecialTokens : List String :=
  ["@@UNKNOWN@@", "@@PADDING@@", "@@start@@", "@@end@@"]

/-- Python dictionary subscripting `counts[token]`: a missing key raises
`KeyError`. -/
def dictGet (counts : List (String × ℚ)) (k : String) : Except String ℚ :=
  match counts.lookup k with
  | some v => Except.ok v
  | none => Except.error ("KeyError: " ++ k)

/-- The loop of `compute_background_log_frequency` before `torch.log`:
for each vocabulary index the entry is `1e-12` when the token is special
or absent from the word-count dictionary, and otherwise the recorded
count, read by dictionary subscripting (the Python `elif token in
precomputed_word_counts` guard is exactly the complement of the first
branch, so the subscript cannot raise).  The vocabulary is modelled as
the token list `vocab.get_token_from_index(i)` for
`i < vocab.get_vocab_size(namespace)`; the JSON file is modelled as the
parsed association list it contains, read once. -/
def backgroundTermFrequency (precomputed_word_counts : List (String × ℚ)) :
    List String → Except String (List ℚ)
  | [] => Except.ok []
  | token :: rest =>
    match (if token ∈ vampireSpecialTokens ∨
        precomputed_word_counts.lookup token = none then
        Except.ok (1e-12 : ℚ)
      else dictGet precomputed_word_counts token) with
    | Except.error e => Except.error e
    | Except.ok q =>
      match backgroundTermFrequency precomputed_word_counts rest with
      | Except.error e => Except.error e
      | Except.ok qs => Except.ok (q :: qs)

/-- `compute_background_log_frequency(precomputed_word_counts, vocab,
vocab_namespace)`: the elementwise `torch.log` of the term-frequency
vector. -/
noncomputable def compute_background_log_frequency
    (precomputed_word_counts : List (String × ℚ)) (vocab : List String) :
    Except String (List ℝ) :=
  (backgroundTermFrequency precomputed_word_counts vocab).map
    (fun v => v.map (fun q : ℚ => Real.log (q : ℝ)))

/-- `torch.nn.functional.softmax(xs, dim=-1)` over the reals. -/
noncomputable def softmax (xs : List ℝ) : List ℝ :=
  xs.map (fun x => Real.exp x / (xs.map Real.exp).sum)

/-- `one_hot(idxs, new_dim_size)` for a scalar index:
`(idxs.unsqueeze(-1) == torch.arange(new_dim_size)).float()`. -/
noncomputable def one_hot (idx new_dim_size : ℕ) : List ℝ :=
  (List.range new_dim_size).map (fun i => if idx = i then (1 : ℝ) else 0)

/-- `log_standard_categorical(p)`: the prior is the softmax of a vector
of ones shaped like `p`, and the result is
`sum(p * log(prior + 1e-8), dim=-1)` (the `requires_grad` flag is
autograd bookkeeping with no numeric effect). -/
noncomputable def log_standard_categorical (p : List ℝ) : ℝ :=
  let prior := softmax (p.map (fun _ => (1 : ℝ)))
  ((p.zip prior).map (fun q => q.1 * Real.log (q.2 + 1e-8))).sum

/-- `np.random.randint(lo, hi)` driven by the explicit RNG stream: the
next pre-drawn value reduced into `[lo, hi)`; an empty stream or an
empty range produces no sample. -/
def randint (lo hi : ℕ) (s : List ℕ) : Option (ℕ × List ℕ) :=
  match s with
  | [] => none
  | x :: rest => if lo < hi then some (lo + x % (hi - lo), rest) else none

/-- The `while True` retry loop of `check_dispersion`: keep drawing
`idx2 = np.random.randint(lo, hi)` until it differs from `idx1`; a
stream that never yields a distinct value produces no sample. -/
def drawDistinct (idx1 lo hi : ℕ) : List ℕ → Option (ℕ × List ℕ)
  | [] => none
  | x :: rest =>
    if lo < hi then
      let idx2 := lo + x % (hi - lo)
      if idx2 ≠ idx1 then some (idx2, rest) else drawDistinct idx1 lo hi rest
    else none

/-- Elementwise addition of two equal-length vectors. -/
def addVec (xs ys : List ℝ) : List ℝ :=
  (xs.zip ys).map (fun q => q.1 + q.2)

/-- One pass of the `check_dispersion` sampling loop.  Each iteration
draws `idx1` with `np.random.randint(0, batch - 1)` and a distinct
`idx2`, then executes `cos_sim += np.cos(vecs[0][idx1], vecs[0][idx2])`:
NumPy's two-argument `np.cos` computes the elementwise cosine of its
first argument and writes it into its second argument (the `out`
parameter), which aliases row `idx2` of the input tensor — so the row is
overwritten and the value added to `cos_sim` is `cos(vecs[idx1])`. -/
noncomputable def cdLoop : ℕ → List (List ℝ) → List ℝ → List ℕ → Option (List ℝ)
  | 0, _, cos_sim, _ => some cos_sim
  | n + 1, vecs, cos_sim, s =>
    match randint 0 (vecs.length - 1) s with
    | none => none
    | some (idx1, s1) =>
      match drawDistinct idx1 0 (vecs.length - 1) s1 with
      | none => none
      | some (idx2, s2) =>
        let c := (vecs.getD idx1 []).map Real.cos
        cdLoop n (vecs.set idx2 c) (addVec cos_sim c) s2

/-- `check_dispersion(vecs, num_sam)` with the RNG stream explicit:
after `unsqueeze(0)`, `vecs.size(1)` is the batch size; a batch of at
most 2 returns `torch.zeros(1)` before any sampling; otherwise the
accumulated vector is divided by `num_sam`. -/
noncomputable def check_dispersion (vecs : List (List ℝ)) (num_sam : ℕ)
    (s : List ℕ) : Option (List ℝ) :=
  if vecs.length ≤ 2 then some [0]
  else (cdLoop num_sam vecs (List.replicate (vecs.headI.length) 0) s).map
    (fun cs => cs.map (fun x => x / (num_sam : ℝ)))

/-- `torch.multinomial(weights, 1)` driven by the explicit RNG stream:
the drawn category index is determined by the hidden RNG state, which
the stream abstracts; the weights shape the physical distribution but
not which index a given state produces in this model. -/
def multinomial (weights : List ℝ) (s : List ℕ) : Option (ℕ × List ℕ) :=
  match s with
  | [] => none
  | x :: rest =>
    if weights.length ≠ 0 then some (x % weights.length, rest) else none

/-- `sample(dist, strategy)`: only the `'greedy'` branch assigns the
local variable `sample`; any other strategy reaches
`sample.squeeze()` with the local unbound and raises
`UnboundLocalError`. -/
noncomputable def sample (dist : List ℝ) (strategy : String) (s : List ℕ) :
    Except String ℕ :=
  if strategy = "greedy" then
    match multinomial (softmax dist) s with
    | some pr => Except.ok pr.1
    | none => Except.error "RuntimeError: invalid multinomial draw"
  else
    Except.error "UnboundLocalError: local variable sample referenced before assignment"

/-- A concrete batch of three one-dimensional latent vectors used to
exhibit the RNG dependence of `check_dispersion`. -/
noncomputable def cdDemo : List (List ℝ) := [[0], [Real.pi], [0]]

end Vampire

namespace Vampire

theorem maskedSelect_map_pred (p : ℕ → Bool) :
    ∀ row : List ℕ, maskedSelect row (row.map p) = row.filter p := by
  intro row
  induction row with
  | nil => rfl
  | cons x xs ih =>
    simp only [maskedSelect, List.map_cons, List.zip_cons_cons,
      List.filterMap_cons, List.filter_cons] at *
    by_cases h : p x <;> simp [h, ih]

theorem bincount_length_of_lt (xs : List ℕ) (m : ℕ)
    (h : ∀ x ∈ xs, x < m) : (bincount xs m).length = m := by
  have hfold : xs.foldr (fun x acc => max (x + 1) acc) 0 ≤ m := by
    induction xs with
    | nil => simp
    | cons y ys ih =>
      simp only [List.foldr_cons]
      have hy : y < m := h y (List.mem_cons_self y ys)
      have hys : ys.foldr (fun x acc => max (x + 1) acc) 0 ≤ m :=
        ih (fun x hx => h x (List.mem_cons_of_mem y hx))
      omega
  simp [bincount, Nat.max_eq_left hfold]

theorem bincount_get (xs : List ℕ) (m v : ℕ) (hv : v < (bincount xs m).length) :
    (bincount xs m).get ⟨v, hv⟩ = xs.count v := by
  simp [bincount] at hv ⊢

theorem bincount_getElem (xs : List ℕ) (m v : ℕ) (hv : v < (bincount xs m).length) :
    (bincount xs m)[v] = xs.count v := by
  simp [bincount] at hv ⊢

theorem zip_map_self {α β : Type} (g : α → β) :
    ∀ l : List α, l.zip (l.map g) = l.map (fun a => (a, g a))
  | [] => rfl
  | x :: xs => by simp [zip_map_self g xs]

theorem compute_bow_rows_none (tokens : List (List ℕ)) (vocab_size : ℕ)
    (hne : tokens ≠ []) :
    compute_bow tokens vocab_size none =
      some (tokens.map (fun row =>
        bincount (row.filter (fun t => decide (t ≠ 0))) vocab_size)) := by
  simp only [compute_bow, get_text_field_mask, zip_map_self, List.map_map,
    Function.comp_def]
  have hrows : ∀ row ∈ tokens,
      bincount (maskedSelect row (row.map (fun t => decide (t ≠ 0)))) vocab_size =
      bincount (row.filter (fun t => decide (t ≠ 0))) vocab_size := by
    intro row _
    rw [maskedSelect_map_pred]
  rw [List.map_congr_left hrows]
  have : (tokens.map (fun row =>
      bincount (row.filter (fun t => decide (t ≠ 0))) vocab_size)).isEmpty = false := by
    cases tokens with
    | nil => exact absurd rfl hne
    | cons r rs => rfl
  simp [this, hne]

/-- C1 (amended): with `stopword_indicator = None`, a nonempty batch and all
token ids below `vocab_size`, `compute_bow` returns one row per document;
row `d` has length `vocab_size` and its entry `v` is the number of unmasked
(non-padding) occurrences of vocabulary index `v` in document `d`. -/
theorem compute_bow_bag_of_words (tokens : List (List ℕ)) (vocab_size d v : ℕ)
    (hne : tokens ≠ [])
    (hlt : ∀ row ∈ tokens, ∀ t ∈ row, t < vocab_size)
    (hd : d < tokens.length) (hv : v < vocab_size) :
    ∃ rows, compute_bow tokens vocab_size none = some rows ∧
      rows.length = tokens.length ∧
      (rows.getD d []).length = vocab_size ∧
      (rows.getD d []).getD v 0 =
        ((tokens.getD d []).filter (fun t => decide (t ≠ 0))).count v := by
  refine ⟨_, compute_bow_rows_none tokens vocab_size hne, by simp, ?_, ?_⟩
  · have hdm : d < (tokens.map (fun row =>
        bincount (row.filter (fun t => decide (t ≠ 0))) vocab_size)).length := by
      simpa using hd
    rw [List.getD_eq_getElem _ _ hdm, List.getElem_map]
    exact bincount_length_of_lt _ _ (fun x hx =>
      hlt _ (List.getElem_mem hd) x (List.mem_of_mem_filter hx))
  · have hdm : d < (tokens.map (fun row =>
        bincount (row.filter (fun t => decide (t ≠ 0))) vocab_size)).length := by
      simpa using hd
    rw [List.getD_eq_getElem _ _ hdm, List.getElem_map]
    have hlen : (bincount ((tokens[d]).filter (fun t => decide (t ≠ 0))) vocab_size).length
        = vocab_size :=
      bincount_length_of_lt _ _ (fun x hx =>
        hlt _ (List.getElem_mem hd) x (List.mem_of_mem_filter hx))
    have hv' : v < (bincount ((tokens[d]).filter (fun t => decide (t ≠ 0))) vocab_size).length := by
      omega
    rw [List.getD_eq_getElem _ _ hv', bincount_getElem _ _ _ hv']
    rw [List.getD_eq_getElem tokens _ hd]

/-- C1 witness: a concrete two-document batch evaluated through
`compute_bow_bag_of_words`. -/
theorem compute_bow_bag_of_words_witness :
    (([[1, 2, 0], [2, 2, 1]] : List (List ℕ)) ≠ [] ∧
      (∀ row ∈ ([[1, 2, 0], [2, 2, 1]] : List (List ℕ)), ∀ t ∈ row, t < 3) ∧
      0 < 2 ∧ 2 < 3) ∧
    ∃ rows, compute_bow [[1, 2, 0], [2, 2, 1]] 3 none = some rows ∧
      rows.length = 2 ∧ (rows.getD 0 []).length = 3 ∧
      (rows.getD 0 []).getD 2 0 =
        ((([[1, 2, 0], [2, 2, 1]] : List (List ℕ)).getD 0 []).filter
          (fun t => decide (t ≠ 0))).count 2 :=
  ⟨⟨by decide, by decide, by decide, by decide⟩,
    compute_bow_bag_of_words [[1, 2, 0], [2, 2, 1]] 3 0 2
      (by decide) (by decide) (by decide) (by decide)⟩

/-- C1 counterexample: with a stopword indicator marking one vocabulary
index, the returned row has length `vocab_size - 1`, not `vocab_size`:
the stopword entry is removed by `masked_select`, not zeroed. -/
theorem compute_bow_stopword_shrinks :
    compute_bow [[1]] 2 (some [1, 0]) = some [[1]] ∧ ([1] : List ℕ).length ≠ 2 := by
  exact ⟨by decide, by decide⟩

theorem selectRows_nil_list {α : Type} : ∀ idxs : List ℕ, selectRows ([] : List α) idxs = []
  | [] => rfl
  | i :: is => by
    simp only [selectRows, List.filterMap_cons] at *
    rw [show ([] : List α).get? i = none from rfl]
    exact selectRows_nil_list is

theorem selectRows_cons_succ {α : Type} (y : α) (ys : List α) :
    ∀ idxs : List ℕ, selectRows (y :: ys) (idxs.map Nat.succ) = selectRows ys idxs
  | [] => rfl
  | i :: is => by
    have ih := selectRows_cons_succ y ys is
    simp only [selectRows, List.map_cons, List.filterMap_cons] at ih ⊢
    rw [show (y :: ys).get? i.succ = ys.get? i from rfl]
    cases h : ys.get? i <;> simp_all [List.filterMap_map]

theorem selectRows_cons_zero {α : Type} (y : α) (ys : List α) (idxs : List ℕ) :
    selectRows (y :: ys) (0 :: idxs) = y :: selectRows (y :: ys) idxs := by
  simp [selectRows, List.filterMap_cons]

theorem idxWhere_cons (p : ℤ → Bool) (x : ℤ) (xs : List ℤ) :
    idxWhere p (x :: xs) =
      (if p x then [0] else []) ++ (idxWhere p xs).map Nat.succ := by
  simp only [idxWhere, List.length_cons, List.range_succ_eq_map, List.filter_cons]
  rw [List.filter_map]
  have hc : (fun i => p ((x :: xs).getD i 0)) ∘ Nat.succ = fun i => p (xs.getD i 0) := rfl
  rw [hc]
  by_cases hp : p x <;> simp [hp]

theorem selectRows_idxWhere {α : Type} (p : ℤ → Bool) :
    ∀ (xs : List ℤ) (ys : List α),
      selectRows ys (idxWhere p xs) =
        ((xs.zip ys).filter (fun q => p q.1)).map Prod.snd
  | [], ys => by simp [idxWhere, selectRows]
  | x :: xs, [] => by simp [selectRows_nil_list, List.zip_nil_right]
  | x :: xs, y :: ys => by
    rw [idxWhere_cons]
    by_cases hp : p x
    · rw [if_pos hp, List.singleton_append, selectRows_cons_zero,
        selectRows_cons_succ, selectRows_idxWhere p xs ys]
      simp [List.filter_cons, hp]
    · rw [if_neg hp, List.nil_append, selectRows_cons_succ,
        selectRows_idxWhere p xs ys]
      simp [List.filter_cons, hp]

theorem selectRows_nonzeroIndices {α : Type} (xs : List ℤ) (ys : List α) :
    selectRows ys (nonzeroIndices xs) =
      ((xs.zip ys).filter (fun q => decide (q.1 ≠ 0))).map Prod.snd :=
  selectRows_idxWhere _ xs ys

theorem selectRows_zeroIndices {α : Type} (xs : List ℤ) (ys : List α) :
    selectRows ys (zeroIndices xs) =
      ((xs.zip ys).filter (fun q => decide (q.1 = 0))).map Prod.snd :=
  selectRows_idxWhere _ xs ys

theorem filter_length_partition {α : Type} (p : α → Bool) (l : List α) :
    (l.filter p).length + (l.filter (fun a => !(p a))).length = l.length := by
  induction l with
  | nil => rfl
  | cons a l ih =>
    by_cases h : p a <;> simp [List.filter_cons, h] <;> omega

theorem decide_zero_eq_not_ne {β : Type} (q : ℤ × β) :
    (decide (q.1 = 0)) = !(decide (q.1 ≠ 0)) := by
  simp [decide_not]

/-- C2 (amended): whenever `label` is supplied, `split_instances`
partitions the batch by the boolean mask: the labeled output holds the
token rows (and label entries, and target rows when `targets` is given)
at the positions where `is_labeled` is nonzero, in order; the unlabeled
output holds the token rows (and target rows) at the positions where
`is_labeled` is zero; no label entries are kept for unlabeled instances;
every instance lands in exactly one of the two outputs. -/
theorem split_instances_partitions (tokens : List (List ℕ)) (is_labeled : List ℤ)
    (targets : Option (List (List ℕ))) (lab : List ℤ)
    (hlen : is_labeled.length = tokens.length) :
    ∃ L U, split_instances tokens is_labeled targets (some lab) = Except.ok (L, U) ∧
      L.tokens.getD [] =
        ((is_labeled.zip tokens).filter (fun q => decide (q.1 ≠ 0))).map Prod.snd ∧
      U.tokens.getD [] =
        ((is_labeled.zip tokens).filter (fun q => decide (q.1 = 0))).map Prod.snd ∧
      L.label.getD [] =
        ((is_labeled.zip lab).filter (fun q => decide (q.1 ≠ 0))).map Prod.snd ∧
      U.label = none ∧
      (∀ t, targets = some t →
        L.targets.getD [] =
          ((is_labeled.zip t).filter (fun q => decide (q.1 ≠ 0))).map Prod.snd ∧
        U.targets.getD [] =
          ((is_labeled.zip t).filter (fun q => decide (q.1 = 0))).map Prod.snd) ∧
      (L.tokens.getD []).length + (U.tokens.getD []).length = tokens.length := by
  have hcount : (((is_labeled.zip tokens).filter (fun q => decide (q.1 ≠ 0))).map
        Prod.snd).length +
      (((is_labeled.zip tokens).filter (fun q => decide (q.1 = 0))).map
        Prod.snd).length = tokens.length := by
    rw [List.length_map, List.length_map,
      List.filter_congr (fun q _ => decide_zero_eq_not_ne q),
      filter_length_partition (fun q => decide (q.1 ≠ 0)) (is_labeled.zip tokens),
      List.length_zip, hlen, Nat.min_self]
  by_cases h1 : (nonzeroIndices is_labeled).isEmpty
  · have hz1 : nonzeroIndices is_labeled = [] := by
      cases hx : nonzeroIndices is_labeled with
      | nil => rfl
      | cons a l => rw [hx] at h1; exact absurd h1 (by simp)
    by_cases h2 : (zeroIndices is_labeled).isEmpty
    · have hz2 : zeroIndices is_labeled = [] := by
        cases hx : zeroIndices is_labeled with
        | nil => rfl
        | cons a l => rw [hx] at h2; exact absurd h2 (by simp)
      refine ⟨⟨none, none, none⟩, ⟨none, none, none⟩, ?_, ?_, ?_, ?_, rfl, ?_, ?_⟩
      · simp [split_instances, h1, h2]
      · rw [← selectRows_nonzeroIndices, hz1]; rfl
      · rw [← selectRows_zeroIndices, hz2]; rfl
      · rw [← selectRows_nonzeroIndices, hz1]; rfl
      · intro t ht
        constructor
        · rw [← selectRows_nonzeroIndices, hz1]; rfl
        · rw [← selectRows_zeroIndices, hz2]; rfl
      · rw [← hcount, ← selectRows_nonzeroIndices, ← selectRows_zeroIndices,
          hz1, hz2]; rfl
    · refine ⟨⟨none, none, none⟩,
        ⟨some (selectRows tokens (zeroIndices is_labeled)), none,
          targets.map (fun t => selectRows t (zeroIndices is_labeled))⟩,
        ?_, ?_, ?_, ?_, rfl, ?_, ?_⟩
      · simp [split_instances, h1, h2]
      · rw [← selectRows_nonzeroIndices, hz1]; rfl
      · simp [selectRows_zeroIndices]
      · rw [← selectRows_nonzeroIndices, hz1]; rfl
      · intro t ht
        subst ht
        constructor
        · rw [← selectRows_nonzeroIndices, hz1]; rfl
        · simp [selectRows_zeroIndices]
      · rw [← hcount, ← selectRows_nonzeroIndices, hz1]
        simp [selectRows_zeroIndices]
        rfl
  · by_cases h2 : (zeroIndices is_labeled).isEmpty
    · have hz2 : zeroIndices is_labeled = [] := by
        cases hx : zeroIndices is_labeled with
        | nil => rfl
        | cons a l => rw [hx] at h2; exact absurd h2 (by simp)
      refine ⟨⟨some (selectRows tokens (nonzeroIndices is_labeled)),
          some (selectRows lab (nonzeroIndices is_labeled)),
          targets.map (fun t => selectRows t (nonzeroIndices is_labeled))⟩,
        ⟨none, none, none⟩, ?_, ?_, ?_, ?_, rfl, ?_, ?_⟩
      · simp [split_instances, h1, h2]
      · simp [selectRows_nonzeroIndices]
      · rw [← selectRows_zeroIndices, hz2]; rfl
      · simp [selectRows_nonzeroIndices]
      · intro t ht
        subst ht
        constructor
        · simp [selectRows_nonzeroIndices]
        · rw [← selectRows_zeroIndices, hz2]; rfl
      · rw [← hcount, ← selectRows_zeroIndices, hz2]
        simp [selectRows_nonzeroIndices]
        rfl
    · refine ⟨⟨some (selectRows tokens (nonzeroIndices is_labeled)),
          some (selectRows lab (nonzeroIndices is_labeled)),
          targets.map (fun t => selectRows t (nonzeroIndices is_labeled))⟩,
        ⟨some (selectRows tokens (zeroIndices is_labeled)), none,
          targets.map (fun t => selectRows t (zeroIndices is_labeled))⟩,
        ?_, ?_, ?_, ?_, rfl, ?_, ?_⟩
      · simp [split_instances, h1, h2]
      · simp [selectRows_nonzeroIndices]
      · simp [selectRows_zeroIndices]
      · simp [selectRows_nonzeroIndices]
      · intro t ht
        subst ht
        exact ⟨by simp [selectRows_nonzeroIndices], by simp [selectRows_zeroIndices]⟩
      · rw [← hcount]
        simp [selectRows_nonzeroIndices, selectRows_zeroIndices]

/-- C2 witness: a concrete batch of three instances, the first and third
labeled, evaluated through `split_instances_partitions`. -/
theorem split_instances_partitions_witness :
    ([1, 0, 2] : List ℤ).length = ([[10], [20], [30]] : List (List ℕ)).length ∧
    (∃ L U, split_instances [[10], [20], [30]] [1, 0, 2] (some [[5], [6], [7]])
        (some [3, 4, 9]) = Except.ok (L, U) ∧
      L.tokens.getD [] =
        ((([1, 0, 2] : List ℤ).zip [[10], [20], [30]]).filter
          (fun q => decide (q.1 ≠ 0))).map Prod.snd ∧
      U.tokens.getD [] =
        ((([1, 0, 2] : List ℤ).zip [[10], [20], [30]]).filter
          (fun q => decide (q.1 = 0))).map Prod.snd ∧
      L.label.getD [] =
        ((([1, 0, 2] : List ℤ).zip [3, 4, 9]).filter
          (fun q => decide (q.1 ≠ 0))).map Prod.snd ∧
      U.label = none ∧
      (∀ t, (some [[5], [6], [7]] : Option (List (List ℕ))) = some t →
        L.targets.getD [] =
          ((([1, 0, 2] : List ℤ).zip t).filter (fun q => decide (q.1 ≠ 0))).map
            Prod.snd ∧
        U.targets.getD [] =
          ((([1, 0, 2] : List ℤ).zip t).filter (fun q => decide (q.1 = 0))).map
            Prod.snd) ∧
      (L.tokens.getD []).length + (U.tokens.getD []).length = 3) :=
  ⟨by decide,
    split_instances_partitions [[10], [20], [30]] [1, 0, 2] (some [[5], [6], [7]])
      [3, 4, 9] (by decide)⟩

/-- C2 counterexample: with the default `label = None` and a labeled
instance present, `split_instances` subscripts `None` and raises instead
of partitioning the batch. -/
theorem split_instances_none_label_raises :
    split_instances [[5]] [1] none none =
      Except.error "TypeError: NoneType object is not subscriptable" := by
  rfl

/-- C3: the annealing schedule is monotone in the batch number for the
linear and sigmoid curves, antitone for the reverse sigmoid, and
constant for the constant curve. -/
theorem schedule_monotone (a b : ℝ) (hab : a ≤ b) :
    schedule a "linear" ≤ schedule b "linear" ∧
    schedule a "sigmoid" ≤ schedule b "sigmoid" ∧
    schedule a "reverse_sigmoid" ≥ schedule b "reverse_sigmoid" ∧
    schedule a "constant" = schedule b "constant" := by
  have hlin : schedule a "linear" ≤ schedule b "linear" := by
    simp only [schedule, String.reduceEq, reduceIte, if_pos]
    have hdiv : a / 2500 ≤ b / 2500 := by linarith
    exact min_le_min le_rfl hdiv
  have hsig : schedule a "sigmoid" ≤ schedule b "sigmoid" := by
    simp only [schedule, String.reduceEq, reduceIte]
    have h1 : Real.exp (-(0.0025) * (b - 2500)) ≤ Real.exp (-(0.0025) * (a - 2500)) :=
      Real.exp_le_exp.mpr (by nlinarith)
    have h2 : 0 < 1 + Real.exp (-(0.0025) * (b - 2500)) := by positivity
    apply one_div_le_one_div_of_le h2
    linarith
  have hrev : schedule a "reverse_sigmoid" ≥ schedule b "reverse_sigmoid" := by
    simp only [schedule, String.reduceEq, reduceIte]
    have h1 : Real.exp (0.0025 * (a - 2500)) ≤ Real.exp (0.0025 * (b - 2500)) :=
      Real.exp_le_exp.mpr (by nlinarith)
    have h2 : 0 < 1 + Real.exp (0.0025 * (a - 2500)) := by positivity
    apply one_div_le_one_div_of_le h2
    linarith
  have hcon : schedule a "constant" = schedule b "constant" := by
    simp [schedule]
  exact ⟨hlin, hsig, hrev, hcon⟩

/-- C3 witness: the schedule comparisons instantiated at batch numbers 0
and 1 through `schedule_monotone`. -/
theorem schedule_monotone_witness :
    ((0 : ℝ) ≤ 1) ∧
    (schedule 0 "linear" ≤ schedule 1 "linear" ∧
      schedule 0 "sigmoid" ≤ schedule 1 "sigmoid" ∧
      schedule 0 "reverse_sigmoid" ≥ schedule 1 "reverse_sigmoid" ∧
      schedule 0 "constant" = schedule 1 "constant") :=
  ⟨by norm_num, schedule_monotone 0 1 (by norm_num)⟩

theorem getD_map_range {α : Type} (n i : ℕ) (f : ℕ → α) (x : α) (hi : i < n) :
    ((List.range n).map f).getD i x = f i := by
  rw [List.getD_eq_getElem _ _ (by simpa using hi), List.getElem_map,
    List.getElem_range]

theorem interpolate_row_length (start stop : List ℚ) (steps i : ℕ)
    (hi : i < steps + 2) :
    ((interpolate start stop steps).getD i []).length = start.length := by
  unfold interpolate
  rw [getD_map_range _ _ _ _ hi]
  simp

theorem interpolate_entry (start stop : List ℚ) (steps i d : ℕ)
    (hlen : start.length = stop.length) (hi : i < steps + 2)
    (hd : d < start.length) :
    ((interpolate start stop steps).getD i []).getD d 0 =
      start.getD d 0 + (stop.getD d 0 - start.getD d 0) * i / (steps + 1) := by
  unfold interpolate
  rw [getD_map_range _ _ _ _ hi]
  have hmap : d < ((List.range start.length).map (fun dim =>
      match (start.zip stop).get? dim with
      | some se => linspace se.1 se.2 (steps + 2)
      | none => List.replicate (steps + 2) 0)).length := by simpa using hd
  rw [List.getD_eq_getElem _ _ (by simpa using hmap), List.getElem_map,
    List.getElem_map, List.getElem_range]
  have hdz : d < (start.zip stop).length := by
    rw [List.length_zip]; omega
  have hd2 : d < stop.length := hlen ▸ hd
  have hget : (start.zip stop).get? d = some (start[d], stop[d]) := by
    rw [List.get?_eq_getElem?, List.getElem?_eq_getElem hdz, List.getElem_zip]
  rw [hget]
  dsimp only [linspace]
  rw [getD_map_range _ _ _ _ hi]
  rw [List.getD_eq_getElem start _ hd, List.getD_eq_getElem stop _ (hlen ▸ hd)]
  have hc : ((steps + 2 : ℕ) : ℚ) - 1 = (steps : ℚ) + 1 := by push_cast; ring
  rw [hc]
  ring

/-- C4: for equal-length vectors and any `steps ≥ 0`, `interpolate`
returns `steps + 2` rows; the first row is `start`, the last row is
`stop`, and row `i` is the linear interpolation
`start + (stop - start) * i / (steps + 1)` componentwise. -/
theorem interpolate_linear (start stop : List ℚ) (steps : ℕ)
    (hlen : start.length = stop.length) :
    (interpolate start stop steps).length = steps + 2 ∧
    (interpolate start stop steps).getD 0 [] = start ∧
    (interpolate start stop steps).getD (steps + 1) [] = stop ∧
    ∀ i d, i < steps + 2 → d < start.length →
      ((interpolate start stop steps).getD i []).getD d 0 =
        start.getD d 0 + (stop.getD d 0 - start.getD d 0) * i / (steps + 1) := by
  have hne : ((steps : ℚ) + 1) ≠ 0 := by positivity
  refine ⟨by simp [interpolate], ?_, ?_,
    fun i d hi hd => interpolate_entry start stop steps i d hlen hi hd⟩
  · apply List.ext_getElem
    · rw [interpolate_row_length start stop steps 0 (by omega)]
    · intro d h1 h2
      have he := interpolate_entry start stop steps 0 d hlen (by omega)
        (by rwa [interpolate_row_length start stop steps 0 (by omega)] at h1)
      simp only [Nat.cast_zero, mul_zero, zero_div, zero_mul, add_zero] at he
      rw [List.getD_eq_getElem _ _ h1, List.getD_eq_getElem _ _ h2] at he
      exact he
  · apply List.ext_getElem
    · rw [interpolate_row_length start stop steps (steps + 1) (by omega), hlen]
    · intro d h1 h2
      have hd : d < start.length := by
        rwa [interpolate_row_length start stop steps (steps + 1) (by omega)] at h1
      have he := interpolate_entry start stop steps (steps + 1) d hlen (by omega) hd
      rw [List.getD_eq_getElem _ _ h1, List.getD_eq_getElem _ _ h2,
        List.getD_eq_getElem start _ hd] at he
      rw [he]
      push_cast
      field_simp

theorem backgroundTermFrequency_eq (counts : List (String × ℚ)) :
    ∀ vocab : List String, backgroundTermFrequency counts vocab =
      Except.ok (vocab.map (fun token =>
        if token ∈ vampireSpecialTokens ∨ counts.lookup token = none then
          (1e-12 : ℚ)
        else (counts.lookup token).getD 0))
  | [] => rfl
  | token :: rest => by
    rw [backgroundTermFrequency]
    by_cases h : token ∈ vampireSpecialTokens ∨ counts.lookup token = none
    · rw [if_pos h, backgroundTermFrequency_eq counts rest]
      simp [h]
      rw [if_pos h]
    · rw [if_neg h]
      push_neg at h
      obtain ⟨h1, h2⟩ := h
      cases hv : counts.lookup token with
      | none => exact absurd hv h2
      | some c =>
        rw [backgroundTermFrequency_eq counts rest]
        simp [dictGet, hv, h1, h2]

theorem background_log_frequency_entry (counts : List (String × ℚ))
    (vocab : List String) (i : ℕ) (hi : i < vocab.length) :
    ∃ v, compute_background_log_frequency counts vocab = Except.ok v ∧
      v.length = vocab.length ∧
      v.getD i 0 = Real.log (((if vocab.getD i "" ∈ vampireSpecialTokens ∨
            counts.lookup (vocab.getD i "") = none then (1e-12 : ℚ)
          else (counts.lookup (vocab.getD i "")).getD 0) : ℚ) : ℝ) := by
  refine ⟨(vocab.map (fun token =>
      if token ∈ vampireSpecialTokens ∨ counts.lookup token = none then
        (1e-12 : ℚ)
      else (counts.lookup token).getD 0)).map (fun q : ℚ => Real.log (q : ℝ)),
    ?_, by simp, ?_⟩
  · unfold compute_background_log_frequency
    rw [backgroundTermFrequency_eq counts vocab]
    rfl
  · have h1 : i < ((vocab.map (fun token =>
        if token ∈ vampireSpecialTokens ∨ counts.lookup token = none then
          (1e-12 : ℚ)
        else (counts.lookup token).getD 0)).map
          (fun q : ℚ => Real.log (q : ℝ))).length := by simpa using hi
    rw [List.getD_eq_getElem _ _ h1, List.getElem_map, List.getElem_map,
      List.getD_eq_getElem vocab _ hi]

/-- C6: `compute_background_log_frequency` returns a vector as long as
the vocabulary whose entry `i` is the log of the count recorded for the
token at index `i`, and `log 1e-12` when that token is special
(`@@UNKNOWN@@`, `@@PADDING@@`, `@@start@@`, `@@end@@`) or absent from
the word-count dictionary. -/
theorem compute_background_log_frequency_spec (counts : List (String × ℚ))
    (vocab : List String) (i : ℕ) (hi : i < vocab.length) :
    ∃ v, compute_background_log_frequency counts vocab = Except.ok v ∧
      v.length = vocab.length ∧
      v.getD i 0 = Real.log (((if vocab.getD i "" ∈ vampireSpecialTokens ∨
            counts.lookup (vocab.getD i "") = none then (1e-12 : ℚ)
          else (counts.lookup (vocab.getD i "")).getD 0) : ℚ) : ℝ) :=
  background_log_frequency_entry counts vocab i hi

/-- C6 witness: a two-token vocabulary with one recorded count evaluated
through `compute_background_log_frequency_spec`. -/
theorem compute_background_log_frequency_spec_witness :
    (0 < (["the", "foo"] : List String).length) ∧
    ∃ v, compute_background_log_frequency [("the", 100)] ["the", "foo"] =
        Except.ok v ∧
      v.length = (["the", "foo"] : List String).length ∧
      v.getD 0 0 = Real.log
        (((if (["the", "foo"] : List String).getD 0 "" ∈ vampireSpecialTokens ∨
              ([("the", (100 : ℚ))].lookup ((["the", "foo"] : List String).getD 0 ""))
                = none then (1e-12 : ℚ)
            else (([("the", (100 : ℚ))].lookup
              ((["the", "foo"] : List String).getD 0 ""))).getD 0) : ℚ) : ℝ) :=
  ⟨by decide, compute_background_log_frequency_spec [("the", 100)] ["the", "foo"] 0
    (by decide)⟩

/-- C5 (amended): a vocabulary token that is absent from the precomputed
word counts is handled internally — its entry becomes `log 1e-12` — and
no missing-key fault is raised or propagated. -/
theorem compute_background_missing_key_handled (counts : List (String × ℚ))
    (vocab : List String) (i : ℕ) (hi : i < vocab.length)
    (hmiss : counts.lookup (vocab.getD i "") = none) :
    ∃ v, compute_background_log_frequency counts vocab = Except.ok v ∧
      v.getD i 0 = Real.log ((1e-12 : ℚ) : ℝ) := by
  obtain ⟨v, hv, hlen, hentry⟩ :=
    background_log_frequency_entry counts vocab i hi
  refine ⟨v, hv, ?_⟩
  rw [hentry, if_pos (Or.inr hmiss)]

/-- C5 witness: a singleton vocabulary whose token has no recorded
count, evaluated through `compute_background_missing_key_handled`. -/
theorem compute_background_missing_key_handled_witness :
    ((0 < (["foo"] : List String).length) ∧
      ([("bar", (5 : ℚ))].lookup ((["foo"] : List String).getD 0 "")) = none) ∧
    ∃ v, compute_background_log_frequency [("bar", 5)] ["foo"] = Except.ok v ∧
      v.getD 0 0 = Real.log ((1e-12 : ℚ) : ℝ) :=
  ⟨⟨by decide, by decide⟩,
    compute_background_missing_key_handled [("bar", 5)] ["foo"] 0 (by decide)
      (by decide)⟩

/-- C5 counterexample: for a vocabulary containing a token absent from
the word counts, the function returns a value (`log 1e-12` at that
index) rather than propagating a missing-key fault. -/
theorem compute_background_missing_key_no_fault :
    compute_background_log_frequency [] ["missing"] =
      Except.ok [Real.log ((1e-12 : ℚ) : ℝ)] := by
  unfold compute_background_log_frequency
  rw [backgroundTermFrequency_eq]
  rfl

theorem map_one_const (k j : ℕ) :
    (one_hot j k).map (fun _ => (1 : ℝ)) = List.replicate k 1 := by
  simp [one_hot, List.map_map, Function.comp_def, List.map_const']

theorem softmax_replicate_one (k : ℕ) (hk : 0 < k) :
    softmax (List.replicate k (1 : ℝ)) = List.replicate k (1 / (k : ℝ)) := by
  have hsum : ((List.replicate k (1 : ℝ)).map Real.exp).sum = k * Real.exp 1 := by
    rw [List.map_replicate, List.sum_replicate, nsmul_eq_mul]
  unfold softmax
  rw [hsum, List.map_replicate]
  congr 1
  have he := Real.exp_ne_zero 1
  have hkc : (k : ℝ) ≠ 0 := Nat.cast_ne_zero.mpr hk.ne'
  field_simp
  ring

theorem sum_zip_replicate_log (c : ℝ) :
    ∀ p : List ℝ, ((p.zip (List.replicate p.length c)).map
        (fun q => q.1 * Real.log (q.2 + 1e-8))).sum = p.sum * Real.log (c + 1e-8)
  | [] => by simp
  | x :: xs => by
    simp only [List.length_cons, List.replicate_succ, List.zip_cons_cons,
      List.map_cons, List.sum_cons, sum_zip_replicate_log c xs]
    ring

theorem sum_one_hot (j : ℕ) : ∀ k : ℕ, j < k → (one_hot j k).sum = 1 := by
  intro k
  induction k with
  | zero => intro h; omega
  | succ k ih =>
    intro hj
    rw [one_hot, List.range_succ, List.map_append, List.sum_append]
    by_cases h : j = k
    · subst h
      have hz : ((List.range j).map (fun i => if j = i then (1 : ℝ) else 0)).sum
          = 0 := by
        apply List.sum_eq_zero
        intro x hx
        simp only [List.mem_map, List.mem_range] at hx
        obtain ⟨i, hik, hxe⟩ := hx
        rw [← hxe, if_neg (by omega)]
      simp [hz]
    · have hjk : j < k := by omega
      have hs := ih hjk
      rw [one_hot] at hs
      rw [hs]
      simp [h]

/-- C7: for every one-hot vector with `k` categories (entry `j < k` set),
`log_standard_categorical` evaluates to `log (1/k + 1e-8)`: the sum of
`p * log (softmax(ones) + 1e-8)` collapses to the single hot entry, and
the softmax of a vector of ones is the uniform distribution `1/k`. -/
theorem log_standard_categorical_one_hot (k j : ℕ) (hj : j < k) :
    log_standard_categorical (one_hot j k) = Real.log (1 / k + 1e-8) := by
  unfold log_standard_categorical
  have hk : 0 < k := by omega
  rw [map_one_const k j, softmax_replicate_one k hk]
  have hlen : (one_hot j k).length = k := by simp [one_hot]
  rw [show List.replicate k (1 / (k : ℝ)) =
      List.replicate (one_hot j k).length (1 / (k : ℝ)) from by rw [hlen]]
  rw [sum_zip_replicate_log (1 / (k : ℝ)) (one_hot j k)]
  rw [sum_one_hot j k hj, one_mul]

/-- C7 witness: the one-hot vector with two categories and hot index 0,
evaluated through `log_standard_categorical_one_hot`. -/
theorem log_standard_categorical_one_hot_witness :
    (0 < 2) ∧
    log_standard_categorical (one_hot 0 2) = Real.log (1 / ((2 : ℕ) : ℝ) + 1e-8) :=
  ⟨by decide, log_standard_categorical_one_hot 2 0 (by decide)⟩

/-- C4 witness: `interpolate [1, 3] [5, 7] 2` evaluated through
`interpolate_linear`. -/
theorem interpolate_linear_witness :
    ([1, 3] : List ℚ).length = ([5, 7] : List ℚ).length ∧
    ((interpolate [1, 3] [5, 7] 2).length = 2 + 2 ∧
      (interpolate [1, 3] [5, 7] 2).getD 0 [] = [1, 3] ∧
      (interpolate [1, 3] [5, 7] 2).getD (2 + 1) [] = [5, 7] ∧
      ∀ i d, i < 2 + 2 → d < ([1, 3] : List ℚ).length →
        ((interpolate [1, 3] [5, 7] 2).getD i []).getD d 0 =
          ([1, 3] : List ℚ).getD d 0 +
            (([5, 7] : List ℚ).getD d 0 - ([1, 3] : List ℚ).getD d 0) * i /
              (((2 : ℕ) : ℚ) + 1)) :=
  ⟨by decide, interpolate_linear [1, 3] [5, 7] 2 (by decide)⟩

theorem cd_eval_left : check_dispersion cdDemo 1 [0, 1] = some [1] := by
  rw [check_dispersion, cdDemo]
  norm_num [cdLoop, randint, drawDistinct, addVec, Real.cos_zero]

theorem cd_eval_right : check_dispersion cdDemo 1 [1, 0] = some [-1] := by
  rw [check_dispersion, cdDemo]
  norm_num [cdLoop, randint, drawDistinct, addVec, Real.cos_pi]

/-- C8 counterexample: `check_dispersion` called twice on the same
tensor and `num_sam` returns different results under two global RNG
states, so it is not a deterministic, stateless function of its
arguments. -/
theorem check_dispersion_same_inputs_differ :
    check_dispersion cdDemo 1 [0, 1] ≠ check_dispersion cdDemo 1 [1, 0] := by
  rw [cd_eval_left, cd_eval_right]
  intro h
  injection h with h'
  injection h' with h2 h3
  norm_num at h2

/-- C8 (amended): the pure helpers are deterministic, but
`check_dispersion` (and `sample`) read the global NumPy/torch RNG state:
with the RNG state explicit there exist two states under which
`check_dispersion` returns different outputs for identical tensor
arguments. -/
theorem check_dispersion_reads_rng_state :
    ∃ s1 s2 : List ℕ, check_dispersion cdDemo 1 s1 ≠ check_dispersion cdDemo 1 s2 := by
  refine ⟨[0, 1], [1, 0], ?_⟩
  rw [cd_eval_left, cd_eval_right]
  intro h
  injection h with h'
  injection h' with h2 h3
  norm_num at h2

/-- C9: for any distribution and RNG state, a strategy other than
`'greedy'` reaches `sample.squeeze()` with the local variable unbound
and raises; a sample is only produced for the `'greedy'` strategy. -/
theorem sample_non_greedy_unbound (dist : List ℝ) (strategy : String)
    (s : List ℕ) (h : strategy ≠ "greedy") :
    sample dist strategy s = Except.error
      "UnboundLocalError: local variable sample referenced before assignment" := by
  simp [sample, h]

/-- C9 witness: the `'temperature'` strategy evaluated through
`sample_non_greedy_unbound`. -/
theorem sample_non_greedy_unbound_witness :
    ("temperature" ≠ "greedy") ∧
    sample [1, 2] "temperature" [0] = Except.error
      "UnboundLocalError: local variable sample referenced before assignment" :=
  ⟨by decide, sample_non_greedy_unbound [1, 2] "temperature" [0] (by decide)⟩

/-- C10: a batch of at most two latent vectors makes `check_dispersion`
return `torch.zeros(1)` immediately, for every `num_sam` and every RNG
state — no pair is sampled. -/
theorem check_dispersion_small_batch (vecs : List (List ℝ)) (num_sam : ℕ)
    (s : List ℕ) (h : vecs.length ≤ 2) :
    check_dispersion vecs num_sam s = some [0] := by
  simp [check_dispersion, h]

/-- C10 witness: a two-vector batch evaluated through
`check_dispersion_small_batch`. -/
theorem check_dispersion_small_batch_witness :
    (([[1], [2]] : List (List ℝ)).length ≤ 2) ∧
    check_dispersion [[1], [2]] 10 [7, 7, 7] = some [0] :=
  ⟨by norm_num, check_dispersion_small_batch [[1], [2]] 10 [7, 7, 7] (by norm_num)⟩

end Vampire
